import Mathlib

/-!
# Filesystem-change notifier (`notify_fs.cpp`)

A shallow embedding of the two entry points `notify_file_modified` and
`notify_file_deleted`.  Each one is an `EM_ASM` block: it passes `path.c_str()`
to a JavaScript fragment that reads a slot of the ambient `Module` object,
tests it for truthiness and for `typeof ... === 'function'`, and, when both
tests pass, calls it with `UTF8ToString($0)`.

The JavaScript side is embedded as explicit state passing over a small heap:
the two `Module` slots, and the rest of the JavaScript world (`globals`).
Function objects are references into a table of function bodies; a body maps
its argument and the heap to a completion, normal or abrupt (an exception),
and may change any part of the heap, the two slots included.  The slots are
data properties, so the reads of a slot within one block give one value.
Function bodies are total: a handler that never returns is not represented.

`UTF8ToString` and the encoder used to read a JavaScript string back as bytes
belong to the Emscripten runtime and to the host; they are not in
`notify_fs.cpp` and are modelled as strict UTF-8 transcoding.
-/

namespace NotifyFs

/-! ## Bytes and strings on the two sides of the boundary -/

/-- One `char` of a `std::string`. -/
abbrev Byte := Fin 256

/-- A JavaScript string: its sequence of UTF-16 code units. -/
abbrev JSString := List Nat

/-- The buffer `std::string::c_str()` points to: the characters of the string
followed by the terminating zero byte. -/
def c_str (path : List Byte) : List Byte := path ++ [0]

/-- The byte with the given value (reduced modulo 256). -/
def byte (n : Nat) : Byte := ⟨n % 256, Nat.mod_lt _ (by decide)⟩

/-- A UTF-8 continuation byte, `10xxxxxx`. -/
def isContinuation (b : Byte) : Bool := 0x80 ≤ b.val && b.val < 0xC0

/-- A Unicode scalar value: a code point below `0x110000` that is not a
surrogate. -/
def isScalarValue (cp : Nat) : Bool := cp < 0xD800 || (0xE000 ≤ cp && cp < 0x110000)

/-- Modelled from the spec: the UTF-8 transcoding done inside `UTF8ToString`,
a function of the Emscripten runtime that is not part of `notify_fs.cpp`.  The
well-formed UTF-8 sequence at the head of the bytes, if there is one, as the
pair of its scalar value and its length in bytes (shortest form only, no
surrogates, at most `0x10FFFF`). -/
def utf8Head : List Byte → Option (Nat × Nat)
  | [] => none
  | b0 :: rest =>
    if b0.val < 0x80 then some (b0.val, 1)
    else if b0.val < 0xC2 then none
    else if b0.val < 0xE0 then
      match rest with
      | b1 :: _ =>
        if isContinuation b1 then some ((b0.val % 32) * 64 + b1.val % 64, 2) else none
      | _ => none
    else if b0.val < 0xF0 then
      match rest with
      | b1 :: b2 :: _ =>
        let cp := (b0.val % 16) * 4096 + (b1.val % 64) * 64 + b2.val % 64
        if isContinuation b1 && isContinuation b2 && 0x800 ≤ cp && isScalarValue cp then
          some (cp, 3)
        else none
      | _ => none
    else if b0.val < 0xF5 then
      match rest with
      | b1 :: b2 :: b3 :: _ =>
        let cp := (b0.val % 8) * 262144 + (b1.val % 64) * 4096 + (b2.val % 64) * 64 + b3.val % 64
        if isContinuation b1 && isContinuation b2 && isContinuation b3
            && 0x10000 ≤ cp && cp < 0x110000 then
          some (cp, 4)
        else none
      | _ => none
    else none

/-- The UTF-16 code units of a code point (`String.fromCharCode` of one unit,
or of a surrogate pair above the basic plane). -/
def fromCodePoint (cp : Nat) : JSString :=
  if cp < 0x10000 then [cp]
  else [0xD800 + (cp - 0x10000) / 1024, 0xDC00 + (cp - 0x10000) % 1024]

/-- Modelled from the spec: the decoding loop of `UTF8ToString` (Emscripten
runtime, not part of `notify_fs.cpp`), the conversion of the path "to the
host's native string representation".  `skip` counts the bytes still to pass
over because they belong to the sequence decoded last.  A byte that starts no
well-formed sequence becomes U+FFFD; the spec leaves text that is not valid in
the encoding open, and no statement below depends on this choice. -/
def decodeFrom : Nat → List Byte → JSString
  | _, [] => []
  | skip + 1, _ :: rest => decodeFrom skip rest
  | 0, b :: rest =>
    match utf8Head (b :: rest) with
    | some (cp, n) => fromCodePoint cp ++ decodeFrom (n - 1) rest
    | none => 0xFFFD :: decodeFrom 0 rest

/-- Modelled from the spec: `UTF8ArrayToString` of the Emscripten runtime on
the bytes of a string whose end is already known: their UTF-8 decoding. -/
def UTF8ArrayToString (bytes : List Byte) : JSString := decodeFrom 0 bytes

/-- Modelled from the spec: `UTF8ToString(ptr)` of the Emscripten runtime,
not part of `notify_fs.cpp`.  It receives a pointer only (`$0` is
`path.c_str()`), so the string it reads ends at the first zero byte of the
buffer; those bytes are decoded as UTF-8. -/
def UTF8ToString (buf : List Byte) : JSString :=
  UTF8ArrayToString (buf.takeWhile (fun b => b != 0))

/-- The UTF-8 encoding of one code point. -/
def utf8Encode (cp : Nat) : List Byte :=
  if cp < 0x80 then [byte cp]
  else if cp < 0x800 then [byte (0xC0 + cp / 64), byte (0x80 + cp % 64)]
  else if cp < 0x10000 then
    [byte (0xE0 + cp / 4096), byte (0x80 + cp / 64 % 64), byte (0x80 + cp % 64)]
  else
    [byte (0xF0 + cp / 262144 % 8), byte (0x80 + cp / 4096 % 64), byte (0x80 + cp / 64 % 64),
      byte (0x80 + cp % 64)]

/-- Modelled from the spec: "encoding the received host string back to bytes",
the UTF-8 encoding of a JavaScript string as `TextEncoder.encode` gives it: a
surrogate pair is one code point, a lone surrogate becomes U+FFFD.  The host
side encoder is not part of `notify_fs.cpp`. -/
def encodeUTF8 : JSString → List Byte
  | [] => []
  | u :: rest =>
    if 0xD800 ≤ u ∧ u < 0xDC00 then
      match rest with
      | l :: rest1 =>
        if 0xDC00 ≤ l ∧ l < 0xE000 then
          utf8Encode (0x10000 + (u - 0xD800) * 1024 + (l - 0xDC00)) ++ encodeUTF8 rest1
        else utf8Encode 0xFFFD ++ encodeUTF8 (l :: rest1)
      | [] => utf8Encode 0xFFFD
    else if 0xDC00 ≤ u ∧ u < 0xE000 then utf8Encode 0xFFFD ++ encodeUTF8 rest
    else utf8Encode u ++ encodeUTF8 rest

/-- Well-formedness of a byte sequence as UTF-8, checked sequence by sequence;
`skip` as in `decodeFrom`. -/
def wellFormedFrom : Nat → List Byte → Bool
  | _, [] => true
  | skip + 1, _ :: rest => wellFormedFrom skip rest
  | 0, b :: rest =>
    match utf8Head (b :: rest) with
    | some (_, n) => wellFormedFrom (n - 1) rest
    | none => false

/-- A valid path string: text in the expected encoding (well-formed UTF-8)
that a C string can carry (no zero byte). -/
def validPath (path : List Byte) : Bool :=
  path.all (fun b => b != 0) && wellFormedFrom 0 path

/-- The UTF-8 bytes of a list of code points. -/
def utf8EncodeAll : List Nat → List Byte
  | [] => []
  | cp :: rest => utf8Encode cp ++ utf8EncodeAll rest

/-- The UTF-16 code units of a list of code points. -/
def utf16EncodeAll : List Nat → JSString
  | [] => []
  | cp :: rest => fromCodePoint cp ++ utf16EncodeAll rest

/-- The path written as a string literal, in UTF-8. -/
def pathOf (s : String) : List Byte := utf8EncodeAll (s.toList.map Char.toNat)

/-! ## JavaScript values -/

/-- The JavaScript values a `Module` slot may hold.  Function objects and other
objects are held by reference; `number` carries an integral Number and `nan`
is NaN, which is enough for what the notifier observes of a value: its
truthiness and its `typeof`. -/
inductive JSValue where
  | undefined
  | null
  | boolean (b : Bool)
  | number (n : Int)
  | nan
  | bigint (n : Int)
  | string (s : JSString)
  | symbol (ref : Nat)
  | object (ref : Nat)
  | function (ref : Nat)
  deriving DecidableEq, Repr

/-- The JavaScript `typeof` operator. -/
def JSValue.typeof : JSValue → String
  | .undefined => "undefined"
  | .null => "object"
  | .boolean _ => "boolean"
  | .number _ => "number"
  | .nan => "number"
  | .bigint _ => "bigint"
  | .string _ => "string"
  | .symbol _ => "symbol"
  | .object _ => "object"
  | .function _ => "function"

/-- The truthiness of a value (ECMAScript `ToBoolean`), as used by `&&`. -/
def JSValue.toBoolean : JSValue → Bool
  | .undefined => false
  | .null => false
  | .boolean b => b
  | .number n => n != 0
  | .nan => false
  | .bigint n => n != 0
  | .string s => !s.isEmpty
  | .symbol _ => true
  | .object _ => true
  | .function _ => true

/-! ## Host state -/

/-- The two optional callback slots of the ambient `Module` object. -/
structure ModuleObject where
  onFileChange : JSValue
  onFileDelete : JSValue
  deriving DecidableEq, Repr

/-- The mutable JavaScript state: the `Module` slots and everything else
(`globals`, of a type chosen by the host application). -/
structure JSHeap (σ : Type) where
  Module : ModuleObject
  globals : σ

/-- What a JavaScript exception carries. -/
inductive Thrown where
  | typeError
  | value (v : JSValue)
  deriving DecidableEq, Repr

/-- How the evaluation of a function body ends: normally, or by an exception;
either way the heap is left in some state. -/
inductive Completion (σ : Type) where
  | normal (heap : JSHeap σ)
  | throw (e : Thrown) (heap : JSHeap σ)

/-- The heap a completion leaves behind. -/
def Completion.heap {σ : Type} : Completion σ → JSHeap σ
  | .normal s => s
  | .throw _ s => s

/-- The exception of a completion, if it is an abrupt one. -/
def Completion.thrown {σ : Type} : Completion σ → Option Thrown
  | .normal _ => none
  | .throw e _ => some e

/-- The body of a one-argument JavaScript function: from the argument and the
heap at the call to a completion. -/
abbrev FunctionBody (σ : Type) := JSString → JSHeap σ → Completion σ

/-- The host environment: the heap, and the body of every function object. -/
structure Host (σ : Type) where
  heap : JSHeap σ
  code : Nat → FunctionBody σ

/-- The two handler slots by name. -/
inductive Slot where
  | onFileChange
  | onFileDelete
  deriving DecidableEq, Repr

/-- One call made by an `EM_ASM` block: the slot it was made through, the
function object called, and the argument. -/
structure Invocation where
  slot : Slot
  callee : Nat
  arg : JSString
  deriving DecidableEq, Repr

/-- What one run of an `EM_ASM` block leaves behind: the calls it made, the
heap, and the exception that leaves the block uncaught, if any (`none` means
that control returns to the C++ caller). -/
structure Run (σ : Type) where
  calls : List Invocation
  heap : JSHeap σ
  thrown : Option Thrown

/-- The JavaScript call `Module.<slot>(arg)` on the value `v` read from the
slot: a function object runs its body; calling anything else is a
`TypeError`. -/
def callSlot {σ : Type} (h : Host σ) (slot : Slot) (v : JSValue) (arg : JSString) : Run σ :=
  match v with
  | .function ref =>
      let c := h.code ref arg h.heap
      { calls := [{ slot := slot, callee := ref, arg := arg }], heap := c.heap, thrown := c.thrown }
  | _ => { calls := [], heap := h.heap, thrown := some Thrown.typeError }

/-! ## The two entry points -/

/-- The function `notify_file_modified` of `notify_fs.cpp`: the `EM_ASM` block
`if (Module.onFileChange && typeof Module.onFileChange === 'function')
Module.onFileChange(UTF8ToString($0));` with `$0 = path.c_str()`. -/
def notify_file_modified {σ : Type} (path : List Byte) (h : Host σ) : Run σ :=
  let arg0 := c_str path
  if h.heap.Module.onFileChange.toBoolean
      && (h.heap.Module.onFileChange.typeof == "function") then
    callSlot h Slot.onFileChange h.heap.Module.onFileChange (UTF8ToString arg0)
  else
    { calls := [], heap := h.heap, thrown := none }

/-- The function `notify_file_deleted` of `notify_fs.cpp`: the `EM_ASM` block
`if (Module.onFileDelete && typeof Module.onFileDelete === 'function')
Module.onFileDelete(UTF8ToString($0));` with `$0 = path.c_str()`. -/
def notify_file_deleted {σ : Type} (path : List Byte) (h : Host σ) : Run σ :=
  let arg0 := c_str path
  if h.heap.Module.onFileDelete.toBoolean
      && (h.heap.Module.onFileDelete.typeof == "function") then
    callSlot h Slot.onFileDelete h.heap.Module.onFileDelete (UTF8ToString arg0)
  else
    { calls := [], heap := h.heap, thrown := none }

/-! ## Callers: consecutive notifications -/

/-- Two notifier calls made one after the other by a C++ caller: the second
runs on the heap the first one left, unless an uncaught exception of the first
unwinds the caller. -/
def inOrder {σ : Type} (first second : Host σ → Run σ) (h : Host σ) : Run σ :=
  let r1 := first h
  match r1.thrown with
  | some _ => r1
  | none =>
    let r2 := second { h with heap := r1.heap }
    { calls := r1.calls ++ r2.calls, heap := r2.heap, thrown := r2.thrown }

/-- The calls `notify_file_modified(p1); ...; notify_file_modified(pn);` in
that order. -/
def notify_modified_each {σ : Type} : List (List Byte) → Host σ → Run σ
  | [], h => { calls := [], heap := h.heap, thrown := none }
  | p :: ps, h => inOrder (notify_file_modified p) (notify_modified_each ps) h

/-! ## The contract in the spec's words, and exchange of the two slots -/

/-- The contract of either operation as the spec words it, for the value `v`
of the slot the operation checks: "If present and callable, invokes it with
`path` converted to the host's native string representation.  If absent, or
present but not callable, the call is a silent no-op."  The handler's own
failure "is not caught or reported". -/
def invokeIfCallable {σ : Type} (h : Host σ) (slot : Slot) (v : JSValue) (arg : JSString) :
    Run σ :=
  match v with
  | .function ref =>
      { calls := [{ slot := slot, callee := ref, arg := arg }],
        heap := (h.code ref arg h.heap).heap,
        thrown := (h.code ref arg h.heap).thrown }
  | _ => { calls := [], heap := h.heap, thrown := none }

/-- Exchange of the two slot names. -/
def Slot.swap : Slot → Slot
  | .onFileChange => .onFileDelete
  | .onFileDelete => .onFileChange

/-- The `Module` object with the values of its two slots exchanged. -/
def ModuleObject.swap (m : ModuleObject) : ModuleObject :=
  { onFileChange := m.onFileDelete, onFileDelete := m.onFileChange }

/-- The heap with the values of the two slots exchanged. -/
def JSHeap.swap {σ : Type} (s : JSHeap σ) : JSHeap σ := { s with Module := s.Module.swap }

/-- A completion with the two slots exchanged in the heap it leaves. -/
def Completion.swap {σ : Type} : Completion σ → Completion σ
  | .normal s => .normal s.swap
  | .throw e s => .throw e s.swap

/-- The host with the roles of the two slots exchanged: their values are
exchanged in the heap, and every function body sees, and writes, each slot
under the name of the other. -/
def Host.swap {σ : Type} (h : Host σ) : Host σ :=
  { heap := h.heap.swap, code := fun ref arg s => (h.code ref arg s.swap).swap }

/-- An invocation attributed to the other slot. -/
def Invocation.swap (i : Invocation) : Invocation := { i with slot := i.slot.swap }

/-- A run with the two slots exchanged back: in the heap it leaves and in the
slot each call is attributed to. -/
def Run.swap {σ : Type} (r : Run σ) : Run σ :=
  { calls := r.calls.map Invocation.swap, heap := r.heap.swap, thrown := r.thrown }

/-- The host with `v` stored in `Module.onFileChange`. -/
def Host.setOnFileChange {σ : Type} (h : Host σ) (v : JSValue) : Host σ :=
  { h with heap := { h.heap with Module := { h.heap.Module with onFileChange := v } } }

/-- The host with `v` stored in `Module.onFileDelete`. -/
def Host.setOnFileDelete {σ : Type} (h : Host σ) (v : JSValue) : Host σ :=
  { h with heap := { h.heap with Module := { h.heap.Module with onFileDelete := v } } }

/-! ## Hosts used in the scenarios -/

/-- A handler registered "to append `p` to a list": the list is the rest of
the JavaScript state. -/
def appendToList : FunctionBody (List JSString) :=
  fun arg s => .normal { s with globals := s.globals ++ [arg] }

/-- The host of the list scenario: the file-changed handler appends to a list
that starts empty; no file-deleted handler. -/
def listHost : Host (List JSString) :=
  { heap := { Module := { onFileChange := .function 0, onFileDelete := .undefined },
              globals := [] },
    code := fun _ => appendToList }

/-- The paths each of the two handlers has received. -/
structure Received where
  changed : List JSString
  deleted : List JSString
  deriving DecidableEq, Repr

/-- A file-changed handler that only records its argument. -/
def recordChanged : FunctionBody Received :=
  fun arg s => .normal { s with globals := { s.globals with changed := s.globals.changed ++ [arg] } }

/-- A file-deleted handler that only records its argument. -/
def recordDeleted : FunctionBody Received :=
  fun arg s => .normal { s with globals := { s.globals with deleted := s.globals.deleted ++ [arg] } }

/-- A host with both recording handlers registered. -/
def recordingHost : Host Received :=
  { heap := { Module := { onFileChange := .function 0, onFileDelete := .function 1 },
              globals := { changed := [], deleted := [] } },
    code := fun ref => if ref = 0 then recordChanged else recordDeleted }

/-- A host with no handler registered. -/
def bareHost : Host Unit :=
  { heap := { Module := { onFileChange := .undefined, onFileDelete := .undefined },
              globals := () },
    code := fun _ _ s => .normal s }

/-- A host whose file-changed handler raises an exception (it throws the
string "boom"). -/
def throwingHost : Host Unit :=
  { heap := { Module := { onFileChange := .function 0, onFileDelete := .undefined },
              globals := () },
    code := fun _ _ s => .throw (.value (.string [0x62, 0x6F, 0x6F, 0x6D])) s }

/-- The value of a slot of the `Module` object. -/
def ModuleObject.get (m : ModuleObject) : Slot → JSValue
  | .onFileChange => m.onFileChange
  | .onFileDelete => m.onFileDelete

/-- The entry point that reports through the given slot. -/
def notifier {σ : Type} : Slot → List Byte → Host σ → Run σ
  | .onFileChange => notify_file_modified
  | .onFileDelete => notify_file_deleted

/-! ## The transcoding round trip -/

theorem byte_val (n : Nat) : (byte n).val = n % 256 := rfl

theorem byte_eq_of_val (n : Nat) (b : Byte) (h : n = b.val) : byte n = b := by
  apply Fin.ext
  have := b.isLt
  simp only [byte_val]
  omega

theorem decodeFrom_skip (n : Nat) (l : List Byte) :
    decodeFrom n l = decodeFrom 0 (l.drop n) := by
  induction n generalizing l with
  | zero => simp
  | succ k ih =>
    cases l with
    | nil => simp [decodeFrom]
    | cons b rest => simp [decodeFrom, ih rest]

theorem wellFormedFrom_skip (n : Nat) (l : List Byte) :
    wellFormedFrom n l = wellFormedFrom 0 (l.drop n) := by
  induction n generalizing l with
  | zero => simp
  | succ k ih =>
    cases l with
    | nil => simp [wellFormedFrom]
    | cons b rest => simp [wellFormedFrom, ih rest]


theorem utf8Head_spec (l : List Byte) (cp n : Nat) (h : utf8Head l = some (cp, n)) :
    isScalarValue cp = true ∧ 1 ≤ n ∧ utf8Encode cp ++ l.drop n = l := by
  cases l with
  | nil => simp [utf8Head] at h
  | cons b0 rest =>
    have h0 := b0.isLt
    simp only [utf8Head] at h
    split at h
    · -- one byte
      rename_i hb
      simp only [Option.some.injEq, Prod.mk.injEq] at h
      obtain ⟨rfl, rfl⟩ := h
      refine ⟨by simp [isScalarValue]; omega, le_refl _, ?_⟩
      simp [utf8Encode, hb]
      exact byte_eq_of_val _ _ rfl
    · split at h
      · simp at h
      · split at h
        · -- two bytes
          cases rest with
          | nil => simp at h
          | cons b1 rest1 =>
            have h1 := b1.isLt
            simp only [isContinuation] at h
            split at h
            · rename_i hc
              simp only [Bool.and_eq_true, decide_eq_true_eq] at hc
              simp only [Option.some.injEq, Prod.mk.injEq] at h
              obtain ⟨rfl, rfl⟩ := h
              refine ⟨by simp [isScalarValue]; omega, by omega, ?_⟩
              have e1 : ¬ ((b0.val % 32) * 64 + b1.val % 64 < 0x80) := by omega
              have e2 : (b0.val % 32) * 64 + b1.val % 64 < 0x800 := by omega
              simp only [utf8Encode, e1, e2, if_false, if_true]
              simp
              exact ⟨byte_eq_of_val _ _ (by omega), byte_eq_of_val _ _ (by omega)⟩
            · simp at h
        · split at h
          · -- three bytes
            match rest, h with
            | [], h => simp at h
            | [_], h => simp at h
            | b1 :: b2 :: rest2, h =>
              have h1 := b1.isLt
              have h2 := b2.isLt
              simp only [isContinuation, isScalarValue] at h
              split at h
              · rename_i hc
                simp only [Bool.and_eq_true, Bool.or_eq_true, decide_eq_true_eq] at hc
                simp only [Option.some.injEq, Prod.mk.injEq] at h
                obtain ⟨rfl, rfl⟩ := h
                refine ⟨by simp [isScalarValue]; omega, by omega, ?_⟩
                have e1 : ¬ ((b0.val % 16) * 4096 + (b1.val % 64) * 64 + b2.val % 64 < 0x80) := by
                  omega
                have e2 : ¬ ((b0.val % 16) * 4096 + (b1.val % 64) * 64 + b2.val % 64 < 0x800) := by
                  omega
                have e3 : (b0.val % 16) * 4096 + (b1.val % 64) * 64 + b2.val % 64 < 0x10000 := by
                  omega
                simp only [utf8Encode, e1, e2, e3, if_false, if_true]
                simp
                exact ⟨byte_eq_of_val _ _ (by omega), byte_eq_of_val _ _ (by omega),
                  byte_eq_of_val _ _ (by omega)⟩
              · simp at h
          · split at h
            · -- four bytes
              match rest, h with
              | [], h => simp at h
              | [_], h => simp at h
              | [_, _], h => simp at h
              | b1 :: b2 :: b3 :: rest3, h =>
                have h1 := b1.isLt
                have h2 := b2.isLt
                have h3 := b3.isLt
                simp only [isContinuation] at h
                split at h
                · rename_i hc
                  simp only [Bool.and_eq_true, decide_eq_true_eq] at hc
                  simp only [Option.some.injEq, Prod.mk.injEq] at h
                  obtain ⟨rfl, rfl⟩ := h
                  refine ⟨by simp [isScalarValue]; omega, by omega, ?_⟩
                  have e1 : ¬ ((b0.val % 8) * 262144 + (b1.val % 64) * 4096 + (b2.val % 64) * 64
                      + b3.val % 64 < 0x80) := by omega
                  have e2 : ¬ ((b0.val % 8) * 262144 + (b1.val % 64) * 4096 + (b2.val % 64) * 64
                      + b3.val % 64 < 0x800) := by omega
                  have e3 : ¬ ((b0.val % 8) * 262144 + (b1.val % 64) * 4096 + (b2.val % 64) * 64
                      + b3.val % 64 < 0x10000) := by omega
                  simp only [utf8Encode, e1, e2, e3, if_false]
                  simp
                  exact ⟨byte_eq_of_val _ _ (by omega), byte_eq_of_val _ _ (by omega),
                    byte_eq_of_val _ _ (by omega), byte_eq_of_val _ _ (by omega)⟩
                · simp at h
            · simp at h

theorem encodeUTF8_fromCodePoint (cp : Nat) (s : JSString) (h : isScalarValue cp = true) :
    encodeUTF8 (fromCodePoint cp ++ s) = utf8Encode cp ++ encodeUTF8 s := by
  simp only [isScalarValue, Bool.or_eq_true, Bool.and_eq_true, decide_eq_true_eq] at h
  unfold fromCodePoint
  split
  · rename_i hlt
    have e1 : ¬ (0xD800 ≤ cp ∧ cp < 0xDC00) := by omega
    have e2 : ¬ (0xDC00 ≤ cp ∧ cp < 0xE000) := by omega
    rw [List.singleton_append, encodeUTF8.eq_def]
    simp only [if_neg e1, if_neg e2]
  · rename_i hge
    have e1 : 0xD800 ≤ 0xD800 + (cp - 0x10000) / 1024 ∧ 0xD800 + (cp - 0x10000) / 1024 < 0xDC00 := by
      omega
    have e2 : 0xDC00 ≤ 0xDC00 + (cp - 0x10000) % 1024 ∧ 0xDC00 + (cp - 0x10000) % 1024 < 0xE000 := by
      omega
    have e3 : 0x10000 + (0xD800 + (cp - 0x10000) / 1024 - 0xD800) * 1024
        + (0xDC00 + (cp - 0x10000) % 1024 - 0xDC00) = cp := by omega
    rw [List.cons_append, List.cons_append, List.nil_append, encodeUTF8.eq_def]
    simp only [if_pos e1, if_pos e2, e3]

theorem encodeUTF8_decodeFrom (k : Nat) :
    ∀ l : List Byte, l.length ≤ k → wellFormedFrom 0 l = true →
      encodeUTF8 (decodeFrom 0 l) = l := by
  induction k with
  | zero =>
    intro l hl _
    have : l = [] := List.length_eq_zero.mp (by omega)
    subst this
    rfl
  | succ k ih =>
    intro l hl hwf
    cases l with
    | nil => rfl
    | cons b rest =>
      simp only [wellFormedFrom] at hwf
      simp only [decodeFrom]
      cases hh : utf8Head (b :: rest) with
      | none => simp [hh] at hwf
      | some r =>
        obtain ⟨cp, n⟩ := r
        simp only [hh] at hwf ⊢
        obtain ⟨hs, hn, henc⟩ := utf8Head_spec _ _ _ hh
        rw [wellFormedFrom_skip] at hwf
        rw [decodeFrom_skip, encodeUTF8_fromCodePoint _ _ hs]
        have hdrop : List.drop n (b :: rest) = List.drop (n - 1) rest := by
          obtain ⟨m, rfl⟩ : ∃ m, n = m + 1 := ⟨n - 1, by omega⟩
          simp
        rw [ih (rest.drop (n - 1)) (by simp at hl ⊢; omega) hwf, ← hdrop]
        exact henc

theorem utf8Head_utf8Encode (cp : Nat) (rest : List Byte) (h : isScalarValue cp = true) :
    utf8Head (utf8Encode cp ++ rest) = some (cp, (utf8Encode cp).length) := by
  have hs := h
  simp only [isScalarValue, Bool.or_eq_true, Bool.and_eq_true, decide_eq_true_eq] at h
  unfold utf8Encode
  split
  · rename_i h1
    have e : cp % 256 = cp := by omega
    simp [utf8Head, byte_val, e, h1]
  · split
    · rename_i h1 h2
      have a0 : (0xC0 + cp / 64) % 256 = 0xC0 + cp / 64 := by omega
      have a1 : (0x80 + cp % 64) % 256 = 0x80 + cp % 64 := by omega
      have n1 : ¬ (0xC0 + cp / 64 < 0x80) := by omega
      have n2 : ¬ (0xC0 + cp / 64 < 0xC2) := by omega
      have n3 : 0xC0 + cp / 64 < 0xE0 := by omega
      have c1 : 0x80 ≤ 0x80 + cp % 64 ∧ 0x80 + cp % 64 < 0xC0 := by omega
      have v : (0xC0 + cp / 64) % 32 * 64 + (0x80 + cp % 64) % 64 = cp := by omega
      simp only [List.cons_append, List.nil_append, utf8Head, byte_val, a0, a1, n1, n2, n3,
        isContinuation, c1, v, if_true, if_false, decide_True, Bool.and_self, List.length_cons,
        List.length_nil]
    · split
      · rename_i h1 h2 h3
        have a0 : (0xE0 + cp / 4096) % 256 = 0xE0 + cp / 4096 := by omega
        have a1 : (0x80 + cp / 64 % 64) % 256 = 0x80 + cp / 64 % 64 := by omega
        have a2 : (0x80 + cp % 64) % 256 = 0x80 + cp % 64 := by omega
        have n1 : ¬ (0xE0 + cp / 4096 < 0x80) := by omega
        have n2 : ¬ (0xE0 + cp / 4096 < 0xC2) := by omega
        have n3 : ¬ (0xE0 + cp / 4096 < 0xE0) := by omega
        have n4 : 0xE0 + cp / 4096 < 0xF0 := by omega
        have c1 : 0x80 ≤ 0x80 + cp / 64 % 64 ∧ 0x80 + cp / 64 % 64 < 0xC0 := by omega
        have c2 : 0x80 ≤ 0x80 + cp % 64 ∧ 0x80 + cp % 64 < 0xC0 := by omega
        have v : (0xE0 + cp / 4096) % 16 * 4096 + (0x80 + cp / 64 % 64) % 64 * 64
            + (0x80 + cp % 64) % 64 = cp := by omega
        have r1 : 0x800 ≤ cp := by omega
        simp only [List.cons_append, List.nil_append, utf8Head, byte_val, a0, a1, a2, n1, n2, n3,
          n4, isContinuation, c1, c2, v, r1, hs, if_true, if_false, decide_True,
          Bool.and_self, List.length_cons, List.length_nil]
      · rename_i h1 h2 h3
        have a0 : (0xF0 + cp / 262144 % 8) % 256 = 0xF0 + cp / 262144 % 8 := by omega
        have a1 : (0x80 + cp / 4096 % 64) % 256 = 0x80 + cp / 4096 % 64 := by omega
        have a2 : (0x80 + cp / 64 % 64) % 256 = 0x80 + cp / 64 % 64 := by omega
        have a3 : (0x80 + cp % 64) % 256 = 0x80 + cp % 64 := by omega
        have n1 : ¬ (0xF0 + cp / 262144 % 8 < 0x80) := by omega
        have n2 : ¬ (0xF0 + cp / 262144 % 8 < 0xC2) := by omega
        have n3 : ¬ (0xF0 + cp / 262144 % 8 < 0xE0) := by omega
        have n4 : ¬ (0xF0 + cp / 262144 % 8 < 0xF0) := by omega
        have n5 : 0xF0 + cp / 262144 % 8 < 0xF5 := by omega
        have c1 : 0x80 ≤ 0x80 + cp / 4096 % 64 ∧ 0x80 + cp / 4096 % 64 < 0xC0 := by omega
        have c2 : 0x80 ≤ 0x80 + cp / 64 % 64 ∧ 0x80 + cp / 64 % 64 < 0xC0 := by omega
        have c3 : 0x80 ≤ 0x80 + cp % 64 ∧ 0x80 + cp % 64 < 0xC0 := by omega
        have v : (0xF0 + cp / 262144 % 8) % 8 * 262144 + (0x80 + cp / 4096 % 64) % 64 * 4096
            + (0x80 + cp / 64 % 64) % 64 * 64 + (0x80 + cp % 64) % 64 = cp := by omega
        have r1 : 0x10000 ≤ cp := by omega
        have r2 : cp < 0x110000 := by omega
        simp only [List.cons_append, List.nil_append, utf8Head, byte_val, a0, a1, a2, a3, n1, n2,
          n3, n4, n5, isContinuation, c1, c2, c3, v, r1, r2, if_true, if_false, decide_True,
          Bool.and_self, List.length_cons, List.length_nil]

theorem utf8Encode_length_pos (cp : Nat) : 1 ≤ (utf8Encode cp).length := by
  unfold utf8Encode
  split
  · simp
  · split
    · simp
    · split <;> simp

theorem wellFormedFrom_utf8EncodeAll (cps : List Nat) (h : cps.all isScalarValue = true) :
    wellFormedFrom 0 (utf8EncodeAll cps) = true := by
  induction cps with
  | nil => rfl
  | cons cp rest ih =>
    simp only [List.all_cons, Bool.and_eq_true] at h
    have hpos := utf8Encode_length_pos cp
    have hhead := utf8Head_utf8Encode cp (utf8EncodeAll rest) h.1
    simp only [utf8EncodeAll]
    cases henc : utf8Encode cp with
    | nil => rw [henc] at hpos; simp at hpos
    | cons b bs =>
      rw [henc] at hhead
      rw [List.cons_append] at hhead ⊢
      rw [wellFormedFrom, hhead]
      simp only [List.length_cons, Nat.add_sub_cancel]
      rw [wellFormedFrom_skip, List.drop_left]
      exact ih h.2

theorem UTF8ArrayToString_utf8EncodeAll (cps : List Nat) (h : cps.all isScalarValue = true) :
    UTF8ArrayToString (utf8EncodeAll cps) = utf16EncodeAll cps := by
  unfold UTF8ArrayToString
  induction cps with
  | nil => rfl
  | cons cp rest ih =>
    simp only [List.all_cons, Bool.and_eq_true] at h
    have hpos := utf8Encode_length_pos cp
    have hhead := utf8Head_utf8Encode cp (utf8EncodeAll rest) h.1
    simp only [utf8EncodeAll, utf16EncodeAll]
    cases henc : utf8Encode cp with
    | nil => rw [henc] at hpos; simp at hpos
    | cons b bs =>
      rw [henc] at hhead
      rw [List.cons_append] at hhead ⊢
      rw [decodeFrom, hhead]
      simp only [List.length_cons, Nat.add_sub_cancel]
      rw [decodeFrom_skip, List.drop_left, ih h.2]

theorem takeWhile_c_str (path : List Byte) :
    (c_str path).takeWhile (fun b => b != 0) = path.takeWhile (fun b => b != 0) := by
  induction path with
  | nil => simp [c_str, List.takeWhile]
  | cons b rest ih =>
    simp only [c_str, List.cons_append, List.takeWhile] at ih ⊢
    cases hb : (b != 0) with
    | true => exact congrArg (List.cons b) ih
    | false => rfl

theorem takeWhile_of_all (path : List Byte) (h : path.all (fun b => b != 0) = true) :
    path.takeWhile (fun b => b != 0) = path := by
  induction path with
  | nil => rfl
  | cons b rest ih =>
    simp only [List.all_cons, Bool.and_eq_true] at h
    simp only [List.takeWhile, h.1, ih h.2]

theorem all_takeWhile (path : List Byte) :
    (path.takeWhile (fun b => b != 0)).all (fun b => b != 0) = true := by
  induction path with
  | nil => rfl
  | cons b rest ih =>
    cases hb : (b != 0) with
    | true => simp only [List.takeWhile, hb, List.all_cons, ih, Bool.and_self]
    | false => simp only [List.takeWhile, hb, List.all_nil]

theorem UTF8ToString_c_str (path : List Byte) :
    UTF8ToString (c_str path) = UTF8ArrayToString (path.takeWhile (fun b => b != 0)) := by
  simp only [UTF8ToString, takeWhile_c_str]

theorem encodeUTF8_UTF8ToString (path : List Byte) (h : validPath path = true) :
    encodeUTF8 (UTF8ToString (c_str path)) = path := by
  simp only [validPath, Bool.and_eq_true] at h
  rw [UTF8ToString_c_str, takeWhile_of_all path h.1]
  exact encodeUTF8_decodeFrom path.length path (le_refl _) h.2

/-! ## Concrete runs -/

theorem UTF8ToString_map_dat :
    UTF8ToString (c_str (pathOf "/world/map.dat"))
      = [47, 119, 111, 114, 108, 100, 47, 109, 97, 112, 46, 100, 97, 116] := by
  decide

theorem UTF8ToString_non_ascii :
    UTF8ToString (c_str (pathOf "é€😀")) = [0xE9, 0x20AC, 0xD83D, 0xDE00]
      ∧ pathOf "é€😀" = [0xC3, 0xA9, 0xE2, 0x82, 0xAC, 0xF0, 0x9F, 0x98, 0x80] := by
  decide

theorem list_scenario_run :
    (notify_modified_each [pathOf "/world/map.dat", pathOf "/world/meta.txt"]
        listHost).heap.globals
      = [[47, 119, 111, 114, 108, 100, 47, 109, 97, 112, 46, 100, 97, 116],
         [47, 119, 111, 114, 108, 100, 47, 109, 101, 116, 97, 46, 116, 120, 116]] := by
  decide

theorem truthy_non_function_run :
    (notify_file_modified (pathOf "/world/map.dat")
        (bareHost.setOnFileChange (JSValue.number 5))).calls = []
      ∧ (notify_file_modified (pathOf "/world/map.dat")
          (bareHost.setOnFileChange (JSValue.number 5))).thrown = none
      ∧ (callSlot bareHost Slot.onFileChange (JSValue.number 5) []).thrown
          = some Thrown.typeError := by
  decide

theorem embedded_zero_run :
    (notify_file_deleted (pathOf "/world" ++ 0 :: pathOf "/x") recordingHost).heap.globals
      = { changed := [], deleted := [[47, 119, 111, 114, 108, 100]] } := by
  decide

/-! ## The guard of the `EM_ASM` blocks -/

theorem guard_eq_true_iff (v : JSValue) :
    (v.toBoolean && (v.typeof == "function")) = true ↔ ∃ ref, v = JSValue.function ref := by
  cases v <;> simp [JSValue.toBoolean, JSValue.typeof]

theorem notify_file_modified_eq {σ : Type} (path : List Byte) (h : Host σ) :
    notify_file_modified path h
      = invokeIfCallable h Slot.onFileChange h.heap.Module.onFileChange
          (UTF8ToString (c_str path)) := by
  unfold notify_file_modified
  cases hv : h.heap.Module.onFileChange <;>
    simp [JSValue.toBoolean, JSValue.typeof, invokeIfCallable, callSlot]

theorem notify_file_deleted_eq {σ : Type} (path : List Byte) (h : Host σ) :
    notify_file_deleted path h
      = invokeIfCallable h Slot.onFileDelete h.heap.Module.onFileDelete
          (UTF8ToString (c_str path)) := by
  unfold notify_file_deleted
  cases hv : h.heap.Module.onFileDelete <;>
    simp [JSValue.toBoolean, JSValue.typeof, invokeIfCallable, callSlot]

theorem invokeIfCallable_of_not_function {σ : Type} (h : Host σ) (slot : Slot) (v : JSValue)
    (arg : JSString) (hv : v.typeof ≠ "function") :
    invokeIfCallable h slot v arg = { calls := [], heap := h.heap, thrown := none } := by
  cases v <;> simp [invokeIfCallable, JSValue.typeof] at hv ⊢

/-! ## Exchange of the slots is an involution -/

theorem JSHeap.swap_swap {σ : Type} (s : JSHeap σ) : s.swap.swap = s := rfl

theorem Completion.heap_swap {σ : Type} (c : Completion σ) : c.swap.heap = c.heap.swap := by
  cases c <;> rfl

theorem Completion.thrown_swap {σ : Type} (c : Completion σ) : c.swap.thrown = c.thrown := by
  cases c <;> rfl

theorem invokeIfCallable_swap {σ : Type} (h : Host σ) (slot : Slot) (v : JSValue)
    (arg : JSString) :
    (invokeIfCallable h.swap slot.swap v arg).swap = invokeIfCallable h slot v arg := by
  cases v <;> cases slot <;>
    simp only [invokeIfCallable, Run.swap, Host.swap, List.map, Invocation.swap, Slot.swap,
      Completion.heap_swap, Completion.thrown_swap, JSHeap.swap_swap]

/-! ## The contract of the two operations -/

/-- C1: when `Module.onFileChange` holds a function, one call of
`notify_file_modified` on a valid path makes exactly one call, of that
function through that slot; the argument is the decoded path, and encoding it
back to UTF-8 gives the bytes of the path unchanged.  What the call leaves
(heap, exception if any) is what that one run of the handler leaves. -/
theorem notify_file_modified_invokes_handler_once {σ : Type} (path : List Byte) (h : Host σ)
    (ref : Nat) (hslot : h.heap.Module.onFileChange = JSValue.function ref)
    (hvalid : validPath path = true) :
    (notify_file_modified path h).calls
        = [{ slot := Slot.onFileChange, callee := ref, arg := UTF8ToString (c_str path) }]
      ∧ encodeUTF8 (UTF8ToString (c_str path)) = path
      ∧ (notify_file_modified path h).heap
          = (h.code ref (UTF8ToString (c_str path)) h.heap).heap
      ∧ (notify_file_modified path h).thrown
          = (h.code ref (UTF8ToString (c_str path)) h.heap).thrown := by
  rw [notify_file_modified_eq, hslot]
  exact ⟨rfl, encodeUTF8_UTF8ToString path hvalid, rfl, rfl⟩

/-- Witness for C1, at the empty path and at a path with two-, three- and
four-byte characters. -/
theorem notify_file_modified_invokes_handler_once_witness :
    ((notify_file_modified [] recordingHost).calls
        = [{ slot := Slot.onFileChange, callee := 0, arg := UTF8ToString (c_str []) }]
      ∧ encodeUTF8 (UTF8ToString (c_str [])) = []
      ∧ (notify_file_modified [] recordingHost).heap
          = (recordingHost.code 0 (UTF8ToString (c_str [])) recordingHost.heap).heap
      ∧ (notify_file_modified [] recordingHost).thrown
          = (recordingHost.code 0 (UTF8ToString (c_str [])) recordingHost.heap).thrown)
    ∧ ((notify_file_modified (pathOf "/wörld/€😀.dat") recordingHost).calls
        = [{ slot := Slot.onFileChange, callee := 0,
             arg := UTF8ToString (c_str (pathOf "/wörld/€😀.dat")) }]
      ∧ encodeUTF8 (UTF8ToString (c_str (pathOf "/wörld/€😀.dat"))) = pathOf "/wörld/€😀.dat"
      ∧ (notify_file_modified (pathOf "/wörld/€😀.dat") recordingHost).heap
          = (recordingHost.code 0 (UTF8ToString (c_str (pathOf "/wörld/€😀.dat")))
              recordingHost.heap).heap
      ∧ (notify_file_modified (pathOf "/wörld/€😀.dat") recordingHost).thrown
          = (recordingHost.code 0 (UTF8ToString (c_str (pathOf "/wörld/€😀.dat")))
              recordingHost.heap).thrown) :=
  ⟨notify_file_modified_invokes_handler_once [] recordingHost 0 rfl (by decide),
   notify_file_modified_invokes_handler_once (pathOf "/wörld/€😀.dat") recordingHost 0 rfl
     (by decide)⟩

/-- C2: when neither slot is set, `notify_file_modified` and
`notify_file_deleted` return normally on every path, call nothing, and leave
the heap as it was. -/
theorem notify_without_handlers_is_noop {σ : Type} (path : List Byte) (h : Host σ)
    (hchange : h.heap.Module.onFileChange = JSValue.undefined)
    (hdelete : h.heap.Module.onFileDelete = JSValue.undefined) :
    notify_file_modified path h = { calls := [], heap := h.heap, thrown := none }
      ∧ notify_file_deleted path h = { calls := [], heap := h.heap, thrown := none } := by
  rw [notify_file_modified_eq, notify_file_deleted_eq, hchange, hdelete]
  exact ⟨rfl, rfl⟩

/-- Witness for C2, at a path with non-ASCII characters. -/
theorem notify_without_handlers_is_noop_witness :
    notify_file_modified (pathOf "/wörld/€😀.dat") bareHost
        = { calls := [], heap := bareHost.heap, thrown := none }
      ∧ notify_file_deleted (pathOf "/wörld/€😀.dat") bareHost
        = { calls := [], heap := bareHost.heap, thrown := none } :=
  notify_without_handlers_is_noop (pathOf "/wörld/€😀.dat") bareHost rfl rfl

/-- C3: a value that is not a function, truthy or falsy, stored in a handler
slot makes the notifier call for that slot a no-op that returns normally: no
call, no exception, heap unchanged; and that is also what the same call does
with the slot unset. -/
theorem notify_with_non_callable_is_noop {σ : Type} (path : List Byte) (h : Host σ)
    (v : JSValue) (hv : v.typeof ≠ "function") :
    notify_file_modified path (h.setOnFileChange v)
        = { calls := [], heap := (h.setOnFileChange v).heap, thrown := none }
      ∧ notify_file_modified path (h.setOnFileChange JSValue.undefined)
        = { calls := [], heap := (h.setOnFileChange JSValue.undefined).heap, thrown := none }
      ∧ notify_file_deleted path (h.setOnFileDelete v)
        = { calls := [], heap := (h.setOnFileDelete v).heap, thrown := none }
      ∧ notify_file_deleted path (h.setOnFileDelete JSValue.undefined)
        = { calls := [], heap := (h.setOnFileDelete JSValue.undefined).heap, thrown := none } := by
  refine ⟨?_, ?_, ?_, ?_⟩
  · rw [notify_file_modified_eq]
    exact invokeIfCallable_of_not_function _ _ _ _ hv
  · rw [notify_file_modified_eq]
    rfl
  · rw [notify_file_deleted_eq]
    exact invokeIfCallable_of_not_function _ _ _ _ hv
  · rw [notify_file_deleted_eq]
    rfl

/-- Witness for C3, with a truthy object that is not a function put in the
slots of a host whose handlers were registered. -/
theorem notify_with_non_callable_is_noop_witness :
    notify_file_modified (pathOf "/world/map.dat") (recordingHost.setOnFileChange (JSValue.object 7))
        = { calls := [], heap := (recordingHost.setOnFileChange (JSValue.object 7)).heap,
            thrown := none }
      ∧ notify_file_modified (pathOf "/world/map.dat")
          (recordingHost.setOnFileChange JSValue.undefined)
        = { calls := [], heap := (recordingHost.setOnFileChange JSValue.undefined).heap,
            thrown := none }
      ∧ notify_file_deleted (pathOf "/world/map.dat")
          (recordingHost.setOnFileDelete (JSValue.object 7))
        = { calls := [], heap := (recordingHost.setOnFileDelete (JSValue.object 7)).heap,
            thrown := none }
      ∧ notify_file_deleted (pathOf "/world/map.dat")
          (recordingHost.setOnFileDelete JSValue.undefined)
        = { calls := [], heap := (recordingHost.setOnFileDelete JSValue.undefined).heap,
            thrown := none } :=
  notify_with_non_callable_is_noop (pathOf "/world/map.dat") recordingHost (JSValue.object 7)
    (by decide)

/-- C4: handler selection is exact.  Whatever the two slots hold, every call
made by `notify_file_deleted` goes through `Module.onFileDelete` to the function
stored there, and none through `Module.onFileChange`; every call made by
`notify_file_modified` goes through `Module.onFileChange` to the function stored
there, and none through `Module.onFileDelete`. -/
theorem notify_selects_own_slot {σ : Type} (path : List Byte) (h : Host σ) :
    (notify_file_deleted path h).calls.filter (fun i => i.slot == Slot.onFileChange) = []
      ∧ (notify_file_modified path h).calls.filter (fun i => i.slot == Slot.onFileDelete) = []
      ∧ (notify_file_deleted path h).calls.all
          (fun i => i.slot == Slot.onFileDelete
            && h.heap.Module.onFileDelete == JSValue.function i.callee) = true
      ∧ (notify_file_modified path h).calls.all
          (fun i => i.slot == Slot.onFileChange
            && h.heap.Module.onFileChange == JSValue.function i.callee) = true := by
  rw [notify_file_modified_eq, notify_file_deleted_eq]
  refine ⟨?_, ?_, ?_, ?_⟩
  · cases h.heap.Module.onFileDelete <;> simp [invokeIfCallable]
  · cases h.heap.Module.onFileChange <;> simp [invokeIfCallable]
  · cases h.heap.Module.onFileDelete <;> simp [invokeIfCallable]
  · cases h.heap.Module.onFileChange <;> simp [invokeIfCallable]

/-- C5: `notify_file_deleted` is `notify_file_modified` with the roles of the
two slots exchanged: running it on `h` is running `notify_file_modified` on the
host with the two slots exchanged and exchanging them back.  Exchanging the
slot values alone already gives the same calls.  Both operations are the one
contract `invokeIfCallable`, each on its own slot: a function stored in
`Module.onFileDelete` is called exactly once with the path, and with the slot
unset or holding anything else the call is a no-op. -/
theorem notify_file_deleted_is_modified_with_slots_exchanged {σ : Type} (path : List Byte)
    (h : Host σ) :
    notify_file_deleted path h = (notify_file_modified path h.swap).swap
      ∧ (notify_file_deleted path h).calls
          = (notify_file_modified path { h with heap := h.heap.swap }).calls.map Invocation.swap
      ∧ notify_file_deleted path h
          = invokeIfCallable h Slot.onFileDelete h.heap.Module.onFileDelete
              (UTF8ToString (c_str path))
      ∧ notify_file_modified path h
          = invokeIfCallable h Slot.onFileChange h.heap.Module.onFileChange
              (UTF8ToString (c_str path)) := by
  refine ⟨?_, ?_, notify_file_deleted_eq path h, notify_file_modified_eq path h⟩
  · rw [notify_file_modified_eq, notify_file_deleted_eq]
    exact (invokeIfCallable_swap h Slot.onFileDelete _ _).symm
  · rw [notify_file_modified_eq, notify_file_deleted_eq]
    show _ = (invokeIfCallable _ Slot.onFileChange h.heap.Module.onFileDelete _).calls.map _
    cases h.heap.Module.onFileDelete <;> rfl

/-! ## Sequences of notifications -/

theorem notify_modified_each_appendToList (paths : List (List Byte)) :
    ∀ (h : Host (List JSString)) (ref : Nat),
      h.heap.Module.onFileChange = JSValue.function ref → h.code ref = appendToList →
      (notify_modified_each paths h).thrown = none
        ∧ (notify_modified_each paths h).heap.Module = h.heap.Module
        ∧ (notify_modified_each paths h).heap.globals
            = h.heap.globals ++ paths.map (fun p => UTF8ToString (c_str p))
        ∧ (notify_modified_each paths h).calls
            = paths.map (fun p =>
                { slot := Slot.onFileChange, callee := ref, arg := UTF8ToString (c_str p) }) := by
  induction paths with
  | nil => intro h ref _ _; simp [notify_modified_each]
  | cons p ps ih =>
    intro h ref hslot hcode
    have h1 : notify_file_modified p h
        = { calls := [{ slot := Slot.onFileChange, callee := ref,
                        arg := UTF8ToString (c_str p) }],
            heap := { h.heap with globals := h.heap.globals ++ [UTF8ToString (c_str p)] },
            thrown := none } := by
      rw [notify_file_modified_eq, hslot]
      simp [invokeIfCallable, hcode, appendToList, Completion.heap, Completion.thrown]
    obtain ⟨i1, i2, i3, i4⟩ :=
      ih { h with heap := { h.heap with globals := h.heap.globals ++ [UTF8ToString (c_str p)] } }
        ref hslot hcode
    simp only [notify_modified_each, inOrder, h1]
    refine ⟨i1, i2, ?_, ?_⟩
    · rw [i3]; simp
    · rw [i4]; simp

theorem map_encodeUTF8_of_valid (paths : List (List Byte))
    (hvalid : paths.all validPath = true) :
    (paths.map (fun p => UTF8ToString (c_str p))).map encodeUTF8 = paths := by
  induction paths with
  | nil => rfl
  | cons p ps ih =>
    simp only [List.all_cons, Bool.and_eq_true] at hvalid
    simp only [List.map_cons, encodeUTF8_UTF8ToString p hvalid.1, ih hvalid.2]

/-- C6: when the file-changed handler appends its argument to a list that
starts empty, calling `notify_file_modified` on valid paths `p1, ..., pn` in that
order returns normally and leaves the list equal to `[p1, ..., pn]` (the decoded
paths, which encode back to the paths themselves): one call and one entry per
path, in call order; and after the first `k` calls have returned the list
already holds the first `k` entries. -/
theorem notify_modified_each_yields_paths_in_order (paths : List (List Byte))
    (h : Host (List JSString)) (ref : Nat)
    (hslot : h.heap.Module.onFileChange = JSValue.function ref)
    (hcode : h.code ref = appendToList)
    (hempty : h.heap.globals = [])
    (hvalid : paths.all validPath = true) :
    (notify_modified_each paths h).thrown = none
      ∧ (notify_modified_each paths h).heap.globals
          = paths.map (fun p => UTF8ToString (c_str p))
      ∧ (notify_modified_each paths h).heap.globals.map encodeUTF8 = paths
      ∧ (notify_modified_each paths h).calls
          = paths.map (fun p =>
              { slot := Slot.onFileChange, callee := ref, arg := UTF8ToString (c_str p) })
      ∧ ∀ k, (notify_modified_each (paths.take k) h).heap.globals
          = (paths.take k).map (fun p => UTF8ToString (c_str p)) := by
  have key : ∀ ps : List (List Byte), (notify_modified_each ps h).heap.globals
      = ps.map (fun p => UTF8ToString (c_str p)) := by
    intro ps
    have := (notify_modified_each_appendToList ps h ref hslot hcode).2.2.1
    rw [this, hempty, List.nil_append]
  obtain ⟨i1, _, _, i4⟩ := notify_modified_each_appendToList paths h ref hslot hcode
  refine ⟨i1, key paths, ?_, i4, fun k => key _⟩
  rw [key paths]
  exact map_encodeUTF8_of_valid paths hvalid

/-- Witness for C6: `"/world/map.dat"` then `"/world/meta.txt"`. -/
theorem notify_modified_each_yields_paths_in_order_witness :
    (notify_modified_each [pathOf "/world/map.dat", pathOf "/world/meta.txt"] listHost).thrown
        = none
      ∧ (notify_modified_each [pathOf "/world/map.dat", pathOf "/world/meta.txt"]
            listHost).heap.globals
          = [pathOf "/world/map.dat", pathOf "/world/meta.txt"].map
              (fun p => UTF8ToString (c_str p))
      ∧ (notify_modified_each [pathOf "/world/map.dat", pathOf "/world/meta.txt"]
            listHost).heap.globals.map encodeUTF8
          = [pathOf "/world/map.dat", pathOf "/world/meta.txt"]
      ∧ (notify_modified_each [pathOf "/world/map.dat", pathOf "/world/meta.txt"] listHost).calls
          = [pathOf "/world/map.dat", pathOf "/world/meta.txt"].map (fun p =>
              { slot := Slot.onFileChange, callee := 0, arg := UTF8ToString (c_str p) })
      ∧ ∀ k, (notify_modified_each
            ([pathOf "/world/map.dat", pathOf "/world/meta.txt"].take k) listHost).heap.globals
          = ([pathOf "/world/map.dat", pathOf "/world/meta.txt"].take k).map
              (fun p => UTF8ToString (c_str p)) :=
  notify_modified_each_yields_paths_in_order
    [pathOf "/world/map.dat", pathOf "/world/meta.txt"] listHost 0 rfl rfl rfl (by decide)

/-! ## Failure -/

/-- C7, as the code has it: the notifier has no failure of its own.  For every
path and every host, a call ends with an exception exactly when it called a
handler and that handler ended with an exception, which then leaves the call
uncaught; with the slot unset or holding anything but a function the call
returns normally. -/
theorem notify_fails_only_as_handler_does {σ : Type} (path : List Byte) (h : Host σ) :
    (notify_file_modified path h).thrown
        = (match h.heap.Module.onFileChange with
           | .function ref => (h.code ref (UTF8ToString (c_str path)) h.heap).thrown
           | _ => none)
      ∧ (notify_file_deleted path h).thrown
        = (match h.heap.Module.onFileDelete with
           | .function ref => (h.code ref (UTF8ToString (c_str path)) h.heap).thrown
           | _ => none) := by
  rw [notify_file_modified_eq, notify_file_deleted_eq]
  constructor
  · cases h.heap.Module.onFileChange <;> rfl
  · cases h.heap.Module.onFileDelete <;> rfl

/-- C7 as stated fails: with a callable file-changed handler that throws,
`notify_file_modified` does not return normally; the handler was called once
and its exception leaves the call. -/
theorem notify_file_modified_lets_handler_exception_escape :
    (notify_file_modified (pathOf "/world/map.dat") throwingHost).thrown
        = some (Thrown.value (JSValue.string [0x62, 0x6F, 0x6F, 0x6D]))
      ∧ (notify_file_modified (pathOf "/world/map.dat") throwingHost).thrown ≠ none
      ∧ (notify_file_modified (pathOf "/world/map.dat") throwingHost).calls.length = 1 := by
  decide

/-! ## Order of the two operations -/

theorem notify_file_modified_recording (path : List Byte) (h : Host Received)
    (hchange : ∀ ref, h.heap.Module.onFileChange = JSValue.function ref →
      h.code ref = recordChanged) :
    (notify_file_modified path h).thrown = none
      ∧ (notify_file_modified path h).heap.Module = h.heap.Module
      ∧ (notify_file_modified path h).heap.globals.deleted = h.heap.globals.deleted
      ∧ (notify_file_modified path h).heap.globals.changed
          = h.heap.globals.changed
              ++ (notify_file_modified path h).calls.map (fun i => i.arg) := by
  rw [notify_file_modified_eq]
  cases hv : h.heap.Module.onFileChange with
  | function ref =>
    simp [invokeIfCallable, hchange ref hv, recordChanged, Completion.heap, Completion.thrown]
  | _ => simp [invokeIfCallable]

theorem notify_file_deleted_recording (path : List Byte) (h : Host Received)
    (hdelete : ∀ ref, h.heap.Module.onFileDelete = JSValue.function ref →
      h.code ref = recordDeleted) :
    (notify_file_deleted path h).thrown = none
      ∧ (notify_file_deleted path h).heap.Module = h.heap.Module
      ∧ (notify_file_deleted path h).heap.globals.changed = h.heap.globals.changed
      ∧ (notify_file_deleted path h).heap.globals.deleted
          = h.heap.globals.deleted
              ++ (notify_file_deleted path h).calls.map (fun i => i.arg) := by
  rw [notify_file_deleted_eq]
  cases hv : h.heap.Module.onFileDelete with
  | function ref =>
    simp [invokeIfCallable, hdelete ref hv, recordDeleted, Completion.heap, Completion.thrown]
  | _ => simp [invokeIfCallable]

theorem notify_file_modified_calls_congr {σ : Type} (path : List Byte) (h k : Host σ)
    (hm : k.heap.Module = h.heap.Module) :
    (notify_file_modified path k).calls = (notify_file_modified path h).calls := by
  rw [notify_file_modified_eq, notify_file_modified_eq, hm]
  cases h.heap.Module.onFileChange <;> rfl

theorem notify_file_deleted_calls_congr {σ : Type} (path : List Byte) (h k : Host σ)
    (hm : k.heap.Module = h.heap.Module) :
    (notify_file_deleted path k).calls = (notify_file_deleted path h).calls := by
  rw [notify_file_deleted_eq, notify_file_deleted_eq, hm]
  cases h.heap.Module.onFileDelete <;> rfl

theorem JSHeap.eq_of_fields {σ : Type} (s t : JSHeap σ) (hm : s.Module = t.Module)
    (hg : s.globals = t.globals) : s = t := by
  cases s; cases t; simp only at hm hg; rw [hm, hg]

theorem Received.eq_of_lists (a b : Received) (hc : a.changed = b.changed)
    (hd : a.deleted = b.deleted) : a = b := by
  cases a; cases b; simp only at hc hd; rw [hc, hd]

/-- C8: the two operations may be called in either order.  When the handlers
registered in the two slots only record their own argument, calling
`notify_file_modified(p)` then `notify_file_deleted(q)` and calling them the
other way round both return normally and leave the same heap, hence the same
list of received paths for each handler; and the calls an operation makes are
the same whether or not the other operation ran before it. -/
theorem notify_order_is_immaterial (p q : List Byte) (h : Host Received)
    (hchange : ∀ ref, h.heap.Module.onFileChange = JSValue.function ref →
      h.code ref = recordChanged)
    (hdelete : ∀ ref, h.heap.Module.onFileDelete = JSValue.function ref →
      h.code ref = recordDeleted) :
    (inOrder (notify_file_modified p) (notify_file_deleted q) h).heap
        = (inOrder (notify_file_deleted q) (notify_file_modified p) h).heap
      ∧ (inOrder (notify_file_modified p) (notify_file_deleted q) h).thrown = none
      ∧ (inOrder (notify_file_deleted q) (notify_file_modified p) h).thrown = none
      ∧ (notify_file_deleted q { h with heap := (notify_file_modified p h).heap }).calls
          = (notify_file_deleted q h).calls
      ∧ (notify_file_modified p { h with heap := (notify_file_deleted q h).heap }).calls
          = (notify_file_modified p h).calls := by
  obtain ⟨m1, m2, m3, m4⟩ := notify_file_modified_recording p h hchange
  obtain ⟨d1, d2, d3, d4⟩ := notify_file_deleted_recording q h hdelete
  -- the second call of each order, on the heap the first call left
  have hd2 : ∀ ref, (notify_file_modified p h).heap.Module.onFileDelete = JSValue.function ref →
      h.code ref = recordDeleted := by
    intro ref hr; rw [m2] at hr; exact hdelete ref hr
  have hc2 : ∀ ref, (notify_file_deleted q h).heap.Module.onFileChange = JSValue.function ref →
      h.code ref = recordChanged := by
    intro ref hr; rw [d2] at hr; exact hchange ref hr
  obtain ⟨e1, e2, e3, e4⟩ :=
    notify_file_deleted_recording q { h with heap := (notify_file_modified p h).heap } hd2
  obtain ⟨f1, f2, f3, f4⟩ :=
    notify_file_modified_recording p { h with heap := (notify_file_deleted q h).heap } hc2
  have cd := notify_file_deleted_calls_congr q h
    { h with heap := (notify_file_modified p h).heap } m2
  have cm := notify_file_modified_calls_congr p h
    { h with heap := (notify_file_deleted q h).heap } d2
  refine ⟨?_, ?_, ?_, cd, cm⟩
  · simp only [inOrder, m1, d1]
    apply JSHeap.eq_of_fields
    · rw [e2, f2]; exact m2.trans d2.symm
    · apply Received.eq_of_lists
      · rw [e3, f4, cm]; exact m4.trans (by rw [d3])
      · rw [e4, f3, cd]; exact (by rw [m3]; exact d4.symm)
  · simp only [inOrder, m1]; exact e1
  · simp only [inOrder, d1]; exact f1

/-- Witness for C8, with both recording handlers registered. -/
theorem notify_order_is_immaterial_witness :
    (inOrder (notify_file_modified (pathOf "/world/map.dat"))
        (notify_file_deleted (pathOf "/world/old")) recordingHost).heap
        = (inOrder (notify_file_deleted (pathOf "/world/old"))
            (notify_file_modified (pathOf "/world/map.dat")) recordingHost).heap
      ∧ (inOrder (notify_file_modified (pathOf "/world/map.dat"))
          (notify_file_deleted (pathOf "/world/old")) recordingHost).thrown = none
      ∧ (inOrder (notify_file_deleted (pathOf "/world/old"))
          (notify_file_modified (pathOf "/world/map.dat")) recordingHost).thrown = none
      ∧ (notify_file_deleted (pathOf "/world/old")
            { recordingHost with
              heap := (notify_file_modified (pathOf "/world/map.dat") recordingHost).heap }).calls
          = (notify_file_deleted (pathOf "/world/old") recordingHost).calls
      ∧ (notify_file_modified (pathOf "/world/map.dat")
            { recordingHost with
              heap := (notify_file_deleted (pathOf "/world/old") recordingHost).heap }).calls
          = (notify_file_modified (pathOf "/world/map.dat") recordingHost).calls :=
  notify_order_is_immaterial (pathOf "/world/map.dat") (pathOf "/world/old") recordingHost
    (fun ref hr => by cases hr; rfl) (fun ref hr => by cases hr; rfl)

/-! ## The path as a C string -/

/-- C9: the path crosses the boundary as a NUL-terminated C string.  For a
function stored in the slot of either operation, the one call made has as its
argument the UTF-8 decoding of the bytes of the path that precede its first
zero byte (all of them when there is none); so the call does exactly what it
does on the path cut at its first zero byte, and two paths that agree up to
there give the same run. -/
theorem notify_argument_stops_at_first_zero_byte {σ : Type} (slot : Slot) (path : List Byte)
    (h : Host σ) (ref : Nat) (hslot : h.heap.Module.get slot = JSValue.function ref) :
    (notifier slot path h).calls
        = [{ slot := slot, callee := ref,
             arg := UTF8ArrayToString (path.takeWhile (fun b => b != 0)) }]
      ∧ notifier slot path h = notifier slot (path.takeWhile (fun b => b != 0)) h
      ∧ ∀ other : List Byte,
          other.takeWhile (fun b => b != 0) = path.takeWhile (fun b => b != 0) →
          notifier slot other h = notifier slot path h := by
  have key : ∀ a : List Byte, notifier slot a h
      = invokeIfCallable h slot (JSValue.function ref)
          (UTF8ArrayToString (a.takeWhile (fun b => b != 0))) := by
    intro a
    cases slot
    · simp only [ModuleObject.get] at hslot
      simp only [notifier, notify_file_modified_eq, hslot, UTF8ToString_c_str]
    · simp only [ModuleObject.get] at hslot
      simp only [notifier, notify_file_deleted_eq, hslot, UTF8ToString_c_str]
  refine ⟨by rw [key]; rfl, ?_, ?_⟩
  · rw [key, key, takeWhile_of_all _ (all_takeWhile path)]
  · intro other ho
    rw [key, key, ho]

/-- Witness for C9: `notify_file_deleted` on the bytes of `"/world"`, a zero
byte, and `"/x"`; the handler receives `"/world"`. -/
theorem notify_argument_stops_at_first_zero_byte_witness :
    (notifier Slot.onFileDelete (pathOf "/world" ++ 0 :: pathOf "/x") recordingHost).calls
        = [{ slot := Slot.onFileDelete, callee := 1,
             arg := UTF8ArrayToString
               ((pathOf "/world" ++ 0 :: pathOf "/x").takeWhile (fun b => b != 0)) }]
      ∧ notifier Slot.onFileDelete (pathOf "/world" ++ 0 :: pathOf "/x") recordingHost
          = notifier Slot.onFileDelete
              ((pathOf "/world" ++ 0 :: pathOf "/x").takeWhile (fun b => b != 0)) recordingHost
      ∧ ∀ other : List Byte,
          other.takeWhile (fun b => b != 0)
            = (pathOf "/world" ++ 0 :: pathOf "/x").takeWhile (fun b => b != 0) →
          notifier Slot.onFileDelete other recordingHost
            = notifier Slot.onFileDelete (pathOf "/world" ++ 0 :: pathOf "/x") recordingHost :=
  notify_argument_stops_at_first_zero_byte Slot.onFileDelete
    (pathOf "/world" ++ 0 :: pathOf "/x") recordingHost 1 rfl

/-! ## The slots are only read -/

/-- C10: the notifier only reads the handler slots.  If the handler that a
call invokes (when there is one) leaves the two slots as they were, then after
`notify_file_modified` and after `notify_file_deleted` both `Module.onFileChange`
and `Module.onFileDelete` hold the values they held before the call. -/
theorem notify_leaves_slots_unchanged {σ : Type} (path : List Byte) (h : Host σ)
    (hchange : ∀ ref, h.heap.Module.onFileChange = JSValue.function ref →
      (h.code ref (UTF8ToString (c_str path)) h.heap).heap.Module = h.heap.Module)
    (hdelete : ∀ ref, h.heap.Module.onFileDelete = JSValue.function ref →
      (h.code ref (UTF8ToString (c_str path)) h.heap).heap.Module = h.heap.Module) :
    (notify_file_modified path h).heap.Module = h.heap.Module
      ∧ (notify_file_deleted path h).heap.Module = h.heap.Module := by
  rw [notify_file_modified_eq, notify_file_deleted_eq]
  constructor
  · cases hv : h.heap.Module.onFileChange <;> simp only [invokeIfCallable]
    exact hchange _ hv
  · cases hv : h.heap.Module.onFileDelete <;> simp only [invokeIfCallable]
    exact hdelete _ hv

/-- Witness for C10, with both recording handlers registered. -/
theorem notify_leaves_slots_unchanged_witness :
    (notify_file_modified (pathOf "/world/map.dat") recordingHost).heap.Module
        = recordingHost.heap.Module
      ∧ (notify_file_deleted (pathOf "/world/map.dat") recordingHost).heap.Module
        = recordingHost.heap.Module :=
  notify_leaves_slots_unchanged (pathOf "/world/map.dat") recordingHost
    (fun ref hr => by cases hr; rfl) (fun ref hr => by cases hr; rfl)

end NotifyFs
